import Mathlib

/-!
Verification of the OpenRASP decision-engine specification against the
repository sources:

* `ProcessBuilderHook.java` — the Java command hook (`checkCommand` in its
  byte-array, string-array and list forms);
* `models` (Go) — the cloud backend's dependency storage
  (`AddDependency`, `AggrDependencyByQuery`);
* `mongo_object.h` — the PHP agent's LRU-key declaration.

Components whose implementation is not part of the provided sources
(decision engine boundary, decision cache, interpreter pool, stack
capturer, `build_lru_key`'s body) are modelled from the specification, as
marked in their doc comments.
-/

namespace OpenRasp

/-- Enforcement action of a `Decision` (spec §3). -/
inductive Action
  | ALLOW
  | LOG
  | BLOCK
deriving DecidableEq, Repr

/-- A decision outcome: the action plus human-readable findings (spec §3). -/
structure Decision where
  action : Action
  messages : List String
deriving DecidableEq, Repr

/-- Operation categories of a check (spec §3, `CheckParameter.type`). -/
inductive CType
  | COMMAND
  | FILE
  | SQL
  | DESERIALIZATION
deriving DecidableEq, Repr

/-- The parameter object built by `checkCommand(List<String>)`
(`ProcessBuilderHook.java` lines 131–139): a JavaScript object whose
`command` and `stack` properties are assigned one after the other, so a
failure between the two assignments leaves a part-filled object. -/
structure Params where
  command : Option String
  stack : Option (List String)
deriving DecidableEq, Repr

/-- The engine-internal error taxonomy (spec §7). -/
inductive EngineErr
  | malformedInput (msg : String)
  | poolExhausted (msg : String)
  | scriptLoad (msg : String)
  | checkTimeout (msg : String)
  | scriptRuntime (msg : String)
deriving DecidableEq, Repr

/-- Diagnostic text attached to a failed check, per error kind. -/
def EngineErr.diag : EngineErr → String
  | .malformedInput m => "malformed input: " ++ m
  | .poolExhausted m => "pool exhausted: " ++ m
  | .scriptLoad m => "script load failed: " ++ m
  | .checkTimeout m => "check timeout: " ++ m
  | .scriptRuntime m => "script runtime error: " ++ m

/-- Modelled from the spec: the decision-engine boundary
(`HookHandler.doCheckWithoutRequest`) is not among the provided sources;
per spec §7 every engine-internal error is caught at this boundary and
converted into an ALLOW decision carrying a diagnostic message, never
rethrown.  The engine's behaviour (policy verdict or internal error) is
supplied as an `Except` oracle. -/
def doCheckWithoutRequest (engine : Except EngineErr Decision) (_ty : CType)
    (_p : Params) : Decision :=
  match engine with
  | .ok d => d
  | .error e => { action := .ALLOW, messages := [e.diag] }

/-- The fallible host operations used while building the parameter object
in `checkCommand(List<String>)`: entering the Rhino context
(`JSContextFactory.enterAndInitContext`), allocating the parameter object
(`cx.newObject`), capturing the stack (`StackTrace.getStackTraceArray`)
and allocating the stack array (`cx.newArray`).  Each may throw; the
oracle records each call's result. -/
structure JsEnv where
  enterCtx : Except String Unit
  newObject : Except String Unit
  getStack : Except String (List String)
  newArray : Except String Unit
deriving Repr

/-- The `try { ... } catch (Throwable t)` block of
`checkCommand(List<String>)` (`ProcessBuilderHook.java` lines 132–144):
returns the final value of the local variable `params` (still `none` when
an exception fired before `cx.newObject` returned) together with the
warning logged by the `catch` handler, if any. -/
def buildParams (env : JsEnv) (command : List String) :
    Option Params × Option String :=
  match env.enterCtx with
  | .error e => (none, some e)
  | .ok _ =>
    match env.newObject with
    | .error e => (none, some e)
    | .ok _ =>
      let p0 : Params := { command := some (String.intercalate " " command), stack := none }
      match env.getStack with
      | .error e => (some p0, some e)
      | .ok frames =>
        match env.newArray with
        | .error e => (some p0, some e)
        | .ok _ => (some { p0 with stack := some frames }, none)

/-- Result of one run of `checkCommand(List<String>)`:
`skipped` when the guard `command != null && !command.isEmpty()` failed
(nothing else happens), `aborted` when building threw before `params` was
assigned (the warning is logged and no check is made), `checked` when the
engine was invoked with the parameter object. -/
inductive CheckOutcome
  | skipped
  | aborted (log : String)
  | checked (ty : CType) (d : Decision) (log : Option String)
deriving DecidableEq, Repr

/-- The list form `checkCommand(List<String>)` (`ProcessBuilderHook.java` lines 129–149). -/
def checkCommand (env : JsEnv) (engine : Except EngineErr Decision)
    (command : List String) : CheckOutcome :=
  if command.isEmpty then .skipped
  else
    match buildParams env command with
    | (none, log) => .aborted (log.getD "")
    | (some p, log) => .checked .COMMAND (doCheckWithoutRequest engine .COMMAND p) log

/-- The enforcement effect of an outcome at the intercepted call site: the
hook blocks the operation only through a `checked` BLOCK decision; when
the check is skipped or aborted the intercepted call simply proceeds
(fail-open ALLOW). -/
def CheckOutcome.effectiveAction : CheckOutcome → Action
  | .skipped => .ALLOW
  | .aborted _ => .ALLOW
  | .checked _ d _ => d.action

/-- The zero-byte splitting loop of `checkCommand(byte[], byte[])`
(`ProcessBuilderHook.java` lines 106–114): one string is emitted per zero
byte, holding the bytes accumulated since the previous zero; bytes after
the last zero stay in the accumulator and are discarded.  `acc` is the
pending segment in reverse order. -/
def argsSegmentsAux (acc : List Nat) : List Nat → List (List Nat)
  | [] => []
  | b :: rest =>
    if b = 0 then acc.reverse :: argsSegmentsAux [] rest
    else argsSegmentsAux (b :: acc) rest

/-- Splitting of the `args` byte array at each zero byte. -/
def argsSegments (args : List Nat) : List (List Nat) :=
  argsSegmentsAux [] args

/-- The byte-array form `checkCommand(byte[], byte[])` (`ProcessBuilderHook.java` lines
101–116): the list of strings (as byte lists) passed on to
`checkCommand(List)` — the command array minus its final byte, followed
by the zero-delimited segments of the args array. -/
def checkCommandBytes (command args : List Nat) : List (List Nat) :=
  (if command.isEmpty then [] else [command.dropLast]) ++ argsSegments args

/-! ### Go backend: dependency storage (`models` package) -/

/-- The `Dependency` document of the Go backend (`models` package). -/
structure Dependency where
  upsertId : String
  path : List String
  createTime : Int
  raspId : String
  hostName : String
  registerIp : String
  appId : String
  vendor : String
  product : String
  version : String
  tag : String
  searchString : String
  source : String
deriving DecidableEq, Repr

/-- The fields of `Rasp` read by `AddDependency`. -/
structure Rasp where
  id : String
  appId : String
  hostName : String
  registerIp : String
deriving DecidableEq, Repr

/-- Go's `fmt.Sprint` applied to a `[]string` value: elements separated by
single spaces, between square brackets. -/
def goSprintStrings (l : List String) : String :=
  "[" ++ String.intercalate " " l ++ "]"

/-- One iteration of the `AddDependency` loop body (`models` lines 54–66):
extends the running `idContent` accumulator with the dependency's own
path, (incoming) tag and (incoming) rasp id, then rewrites the
dependency's metadata fields and stamps the accumulated string as its
`UpsertId`.  Note that in the source `idContent` is declared before the
loop and never reset. -/
def addDependencyStep (now : Int) (rasp : Rasp) (idContent : String)
    (dep : Dependency) : String × Dependency :=
  let idContent := idContent ++ goSprintStrings dep.path ++ dep.tag ++ dep.raspId
  (idContent,
    { dep with
      createTime := now
      appId := rasp.appId
      raspId := rasp.id
      hostName := rasp.hostName
      registerIp := rasp.registerIp
      tag := dep.vendor ++ ":" ++ dep.product ++ ":" ++ dep.version
      searchString := dep.product ++ dep.version
      upsertId := idContent })

/-- The document list built by `AddDependency` (`models` lines 51–67),
threading the shared `idContent` accumulator through the batch.  The
Kafka/Elasticsearch submission of the documents is an external effect and
not modelled. -/
def addDependencyDocs (now : Int) (rasp : Rasp) (idContent : String) :
    List Dependency → List Dependency
  | [] => []
  | dep :: rest =>
    let step := addDependencyStep now rasp idContent dep
    step.2 :: addDependencyDocs now rasp step.1 rest

/-- The full `AddDependency` loop with the accumulator at its initial value `""`. -/
def addDependency (now : Int) (rasp : Rasp) (deps : List Dependency) :
    List Dependency :=
  addDependencyDocs now rasp "" deps

/-- A terms-aggregation bucket as consumed by `AggrDependencyByQuery`:
`key = none` models a nil bucket, nil key or non-string key (all skipped
by the source's guards), `key = some tag` a string term. -/
structure AggrBucket where
  key : Option String
  docCount : Int
deriving DecidableEq, Repr

/-- One page entry produced by `AggrDependencyByQuery`. -/
structure DepEntry where
  vendor : String
  product : String
  version : String
  tag : String
  raspCount : Int
deriving DecidableEq, Repr

/-- The per-bucket body of the aggregation page loop (`models` lines
151–164): a bucket contributes an entry exactly when its key is a string
that splits on ":" into exactly three components. -/
def bucketEntry (b : AggrBucket) : Option DepEntry :=
  match b.key with
  | none => none
  | some tag =>
    let dependencyData := tag.splitOn ":"
    if dependencyData.length = 3 then
      some { vendor := dependencyData.getD 0 ""
             product := dependencyData.getD 1 ""
             version := dependencyData.getD 2 ""
             tag := tag
             raspCount := b.docCount }
    else none

/-- The page loop of `AggrDependencyByQuery` (`models` lines 146–165):
`fuel` counts the remaining iterations (`perpage` in total), `i` the loop
counter, `base = (page-1)*perpage`.  The loop breaks once `index`
reaches the bucket count; a negative `index` (possible when `page < 1`)
would panic in Go on the slice access, modelled as `Except.error`. -/
def aggrGo (buckets : List AggrBucket) (base : Int) :
    Nat → Nat → Except String (List DepEntry)
  | 0, _ => .ok []
  | fuel + 1, i =>
    let index : Int := (i : Int) + base
    if index ≥ (buckets.length : Int) then .ok []
    else if index < 0 then .error "runtime error: index out of range"
    else
      match buckets.get? index.toNat with
      | none => .error "runtime error: index out of range"
      | some b =>
        match bucketEntry b with
        | none => aggrGo buckets base fuel (i + 1)
        | some e => (aggrGo buckets base fuel (i + 1)).map (e :: ·)

/-- The result-shaping part of `AggrDependencyByQuery` (`models` lines
140–166) given the buckets returned by the terms aggregation: `total` is
the number of buckets, and the page holds the entries of the buckets in
the requested window whose tag splits into exactly three components. -/
def aggrDependencyByQuery (buckets : List AggrBucket) (page perpage : Int) :
    Except String (Int × List DepEntry) :=
  (aggrGo buckets ((page - 1) * perpage) perpage.toNat 0).map
    (fun entries => ((buckets.length : Int), entries))

/-! ### Spec-modelled components (implementation not among the sources) -/

/-- Modelled from the spec: the Stack Capturer (§4.2;
`StackTrace.getStackTraceArray` is not among the provided sources).  The
current call stack is an explicit list of frame descriptors; `capture`
skips `startOffset` frames and keeps at most `maxDepth`. -/
def capture (stack : List String) (startOffset maxDepth : Nat) : List String :=
  (stack.drop startOffset).take maxDepth

/-- A check parameter as seen by the Cache Key Deriver: the operation
type tag plus the serialized salient fields. -/
structure CheckParam where
  ty : CType
  salient : String
deriving DecidableEq, Repr

/-- Name of an operation type, used as the key namespace. -/
def CType.name : CType → String
  | .COMMAND => "command"
  | .FILE => "file"
  | .SQL => "sql"
  | .DESERIALIZATION => "deserialization"

/-- Modelled from the spec: the Cache Key Deriver (§4.3; the
implementation of `MongoObject::build_lru_key` is not among the provided
sources, only its declaration in `mongo_object.h`).  The key prefixes the
serialized salient fields with the operation type as a namespace. -/
def deriveKey (p : CheckParam) : String :=
  p.ty.name ++ ":" ++ p.salient

/-- Modelled from the spec: the Decision Cache (§4.4) — a bounded
strict-LRU map from key to decision.  `entries` is ordered most recently
used first; there is no time field at all, so no entry can expire by
time. -/
structure LruCache where
  capacity : Nat
  entries : List (String × Decision)
deriving DecidableEq, Repr

/-- The keys currently present in the cache. -/
def LruCache.keys (c : LruCache) : List String :=
  c.entries.map Prod.fst

/-- The `get(key)` operation: on a hit, the entry moves to the front of the recency
order; a miss leaves the cache unchanged.  No entry is ever removed. -/
def LruCache.get (c : LruCache) (k : String) : Option Decision × LruCache :=
  match c.entries.find? (fun e => e.fst = k) with
  | none => (none, c)
  | some e =>
    (some e.snd, { c with entries := e :: c.entries.eraseP (fun e => e.fst = k) })

/-- The `put(key, decision)` operation: an existing key is updated and moved to the
front; a fresh key is inserted at the front, after evicting exactly the
least-recently-used entry (the last one) when the cache is full.  Only
capacity pressure evicts. -/
def LruCache.put (c : LruCache) (k : String) (d : Decision) : LruCache :=
  if c.entries.any (fun e => e.fst = k) then
    { c with entries := (k, d) :: c.entries.eraseP (fun e => e.fst = k) }
  else if c.entries.length < c.capacity then
    { c with entries := (k, d) :: c.entries }
  else
    { c with entries := (k, d) :: c.entries.dropLast }

/-- The empty cache of capacity `cap`. -/
def LruCache.empty (cap : Nat) : LruCache :=
  { capacity := cap, entries := [] }

/-- Decision-engine state across checks: the shared decision cache plus a
counter of interpreter-pool acquisitions. -/
structure EngineState where
  cache : LruCache
  poolAcquisitions : Nat
deriving DecidableEq, Repr

/-- Modelled from the spec: the Decision Engine's `decide` (§4.6; the
orchestration code is not among the provided sources).  For a fixed
policy: derive the cache key, consult the cache; on a hit return the
cached decision without touching the interpreter pool; on a miss acquire
an interpreter, run the policy, store the decision in the cache.  (Named
`decideCheck` because `decide` collides with the core library.) -/
def decideCheck (policy : CheckParam → Decision) (st : EngineState) (p : CheckParam) :
    Decision × EngineState :=
  match st.cache.get (deriveKey p) with
  | (some d, c) => (d, { st with cache := c })
  | (none, c) =>
    { fst := policy p
      snd := { cache := c.put (deriveKey p) (policy p)
               poolAcquisitions := st.poolAcquisitions + 1 } }

/-- Modelled from the spec: the Elasticsearch terms aggregation over the
`tag` field (external backend, §6): one bucket per distinct stored tag
value, carrying the number of matching documents. -/
def termsAgg (tags : List String) : List AggrBucket :=
  tags.dedup.map (fun t => { key := some t, docCount := (tags.count t : Int) })

/-- A host environment in which every JavaScript-side operation succeeds
and stack capture yields no frames. -/
def okEnv : JsEnv :=
  { enterCtx := .ok (), newObject := .ok (), getStack := .ok [], newArray := .ok () }

/-- A plain ALLOW decision with no findings. -/
def allowDecision : Decision :=
  { action := .ALLOW, messages := [] }

/-- A sample agent record for concrete evaluations. -/
def sampleRasp : Rasp :=
  { id := "rid", appId := "app", hostName := "host", registerIp := "ip" }

/-- A sample incoming dependency. -/
def sampleDepA : Dependency :=
  { upsertId := "", path := ["a.jar"], createTime := 0, raspId := "x"
    hostName := "", registerIp := "", appId := "", vendor := "v1"
    product := "p1", version := "1", tag := "t1", searchString := "", source := "" }

/-- A second sample incoming dependency, fully distinct from `sampleDepA`. -/
def sampleDepB : Dependency :=
  { upsertId := "", path := ["b.jar"], createTime := 0, raspId := "y"
    hostName := "", registerIp := "", appId := "", vendor := "v2"
    product := "p2", version := "2", tag := "t2", searchString := "", source := "" }

/-- Sample aggregation buckets: one well-formed three-part tag, one not. -/
def sampleBuckets : List AggrBucket :=
  [{ key := some "a:b:c", docCount := 2 }, { key := some "w", docCount := 1 }]

/-- Sample stored tag values. -/
def sampleTags : List String :=
  ["a:b:c", "a:b:c", "x"]

/-! ## Helper lemmas -/

theorem argsSegmentsAux_length : ∀ (l acc : List Nat),
    (argsSegmentsAux acc l).length = l.count 0
  | [], _ => by simp [argsSegmentsAux]
  | b :: rest, acc => by
    by_cases hb : b = 0
    · subst hb
      simp [argsSegmentsAux, argsSegmentsAux_length rest, List.count_cons]
    · simp [argsSegmentsAux, hb, argsSegmentsAux_length rest, List.count_cons]

theorem argsSegmentsAux_no_zero : ∀ (l acc : List Nat), (∀ b ∈ l, b ≠ 0) →
    argsSegmentsAux acc l = []
  | [], _, _ => rfl
  | b :: rest, acc, h => by
    have hb : b ≠ 0 := h b (by simp)
    simp only [argsSegmentsAux, if_neg hb]
    exact argsSegmentsAux_no_zero rest _ (fun x hx => h x (by simp [hx]))

theorem argsSegmentsAux_append_no_zero : ∀ (l tail acc : List Nat),
    (∀ b ∈ tail, b ≠ 0) → argsSegmentsAux acc (l ++ tail) = argsSegmentsAux acc l
  | [], tail, acc, h => by
    simpa [argsSegmentsAux] using argsSegmentsAux_no_zero tail acc h
  | b :: rest, tail, acc, h => by
    by_cases hb : b = 0
    · subst hb
      have e1 : argsSegmentsAux acc ((0 :: rest) ++ tail) =
          acc.reverse :: argsSegmentsAux [] (rest ++ tail) := rfl
      have e2 : argsSegmentsAux acc (0 :: rest) =
          acc.reverse :: argsSegmentsAux [] rest := rfl
      rw [e1, e2, argsSegmentsAux_append_no_zero rest tail [] h]
    · have e1 : argsSegmentsAux acc ((b :: rest) ++ tail) =
          argsSegmentsAux (b :: acc) (rest ++ tail) := by
        simp [argsSegmentsAux, hb]
      have e2 : argsSegmentsAux acc (b :: rest) =
          argsSegmentsAux (b :: acc) rest := by
        simp [argsSegmentsAux, hb]
      rw [e1, e2, argsSegmentsAux_append_no_zero rest tail (b :: acc) h]

theorem aggrGo_eq (buckets : List AggrBucket) (base : Int) (hb : 0 ≤ base) :
    ∀ (fuel i : Nat), aggrGo buckets base fuel i =
      .ok (((buckets.drop ((i : Int) + base).toNat).take fuel).filterMap bucketEntry)
  | 0, i => by simp [aggrGo]
  | fuel + 1, i => by
    have hnn : (0 : Int) ≤ (i : Int) + base := by positivity
    by_cases hge : (buckets.length : Int) ≤ (i : Int) + base
    · have hlen : buckets.length ≤ ((i : Int) + base).toNat := by omega
      simp [aggrGo, hge, List.drop_eq_nil_of_le hlen]
    · push_neg at hge
      have hn : ((i : Int) + base).toNat < buckets.length := by omega
      have hget : buckets.get? ((i : Int) + base).toNat = some (buckets.get ⟨_, hn⟩) := by
        rw [List.get?_eq_getElem?, List.getElem?_eq_getElem hn]
        rfl
      have htn : (((i + 1 : Nat) : Int) + base).toNat = ((i : Int) + base).toNat + 1 := by
        omega
      have hdrop : buckets.drop ((i : Int) + base).toNat =
          buckets.get ⟨_, hn⟩ :: buckets.drop ((((i + 1 : Nat) : Int) + base).toNat) := by
        rw [htn]
        exact List.drop_eq_getElem_cons hn
      have hnot : ¬ ((i : Int) + base < 0) := by omega
      have hrec := aggrGo_eq buckets base hb fuel (i + 1)
      simp only [aggrGo, not_le.mpr hge, if_false, if_neg hnot, hget, hdrop,
        List.take_succ_cons, List.filterMap_cons, ite_false]
      cases hbe : bucketEntry (buckets.get ⟨_, hn⟩) with
      | none => simp [hbe, hrec]
      | some e => simp [hbe, hrec, Except.map]

theorem addDependencyDocs_tag (now : Int) (rasp : Rasp) :
    ∀ (deps : List Dependency) (idc : String) (d : Dependency),
      d ∈ addDependencyDocs now rasp idc deps →
      d.tag = d.vendor ++ ":" ++ d.product ++ ":" ++ d.version
  | [], _, _, h => by simp [addDependencyDocs] at h
  | dep :: rest, idc, d, h => by
    simp only [addDependencyDocs, List.mem_cons] at h
    cases h with
    | inl he => subst he; rfl
    | inr hm => exact addDependencyDocs_tag now rasp rest _ d hm

theorem LruCache.get_of_find (c : LruCache) (k : String) (e : String × Decision)
    (hf : c.entries.find? (fun x => x.fst = k) = some e) :
    c.get k = (some e.snd, ⟨c.capacity, e :: c.entries.eraseP (fun x => x.fst = k)⟩) := by
  simp [LruCache.get, hf]

theorem LruCache.get_of_find_none (c : LruCache) (k : String)
    (hf : c.entries.find? (fun x => x.fst = k) = none) :
    c.get k = (none, c) := by
  simp [LruCache.get, hf]

theorem LruCache.get_head (cap : Nat) (k : String) (d : Decision)
    (rest : List (String × Decision)) :
    (⟨cap, (k, d) :: rest⟩ : LruCache).get k = (some d, ⟨cap, (k, d) :: rest⟩) := by
  simp [LruCache.get, List.find?_cons, List.eraseP_cons]

theorem LruCache.not_mem_keys_find (c : LruCache) (k : String) (h : k ∉ c.keys) :
    c.entries.find? (fun x => x.fst = k) = none := by
  rw [List.find?_eq_none]
  intro x hx hpx
  have hfst : x.fst = k := of_decide_eq_true hpx
  exact h (hfst ▸ List.mem_map_of_mem Prod.fst hx)

theorem LruCache.put_fresh (c : LruCache) (k : String) (d : Decision)
    (h : k ∉ c.keys) :
    c.put k d = ⟨c.capacity,
      (k, d) :: (if c.entries.length < c.capacity then c.entries
        else c.entries.dropLast)⟩ := by
  have hany : ¬ (c.entries.any (fun x => x.fst = k) = true) := by
    rw [List.any_eq_true]
    rintro ⟨x, hx, hpx⟩
    have hfst : x.fst = k := of_decide_eq_true hpx
    exact h (hfst ▸ List.mem_map_of_mem Prod.fst hx)
  by_cases hlen : c.entries.length < c.capacity
  · simp [LruCache.put, hany, hlen]
  · simp [LruCache.put, hany, hlen]

theorem perm_cons_eraseP_of_find {α : Type} : ∀ (l : List α) (p : α → Bool) (e : α),
    l.find? p = some e → l.Perm (e :: l.eraseP p)
  | [], p, e, h => by simp [List.find?] at h
  | a :: l, p, e, h => by
    cases hpa : p a with
    | true =>
      rw [List.find?_cons_of_pos _ hpa, Option.some_inj] at h
      subst h
      rw [List.eraseP_cons_of_pos hpa]
    | false =>
      have hpa' : ¬ p a = true := by simp [hpa]
      rw [List.find?_cons_of_neg _ hpa'] at h
      rw [List.eraseP_cons_of_neg hpa']
      exact ((perm_cons_eraseP_of_find l p e h).cons a).trans
        (List.Perm.swap e a (l.eraseP p))

theorem LruCache.put_capacity (c : LruCache) (k : String) (d : Decision) :
    (c.put k d).capacity = c.capacity := by
  unfold LruCache.put
  split_ifs <;> rfl

theorem take_append_take {α : Type} (A B : List α) (n : Nat) :
    (A ++ B.take n).take n = (A ++ B).take n := by
  rw [List.take_append_eq_append_take, List.take_append_eq_append_take,
    List.take_take, inf_eq_left.mpr (Nat.sub_le n A.length)]

theorem LruCache.keys_put_fresh (c : LruCache) (k : String) (d : Decision)
    (h : k ∉ c.keys) (hle : c.entries.length ≤ c.capacity) (hC : 0 < c.capacity) :
    (c.put k d).keys = (k :: c.keys).take c.capacity := by
  rw [LruCache.put_fresh c k d h]
  by_cases hlen : c.entries.length < c.capacity
  · rw [if_pos hlen]
    have hkl : (k :: c.keys).length ≤ c.capacity := by
      simp only [List.length_cons, LruCache.keys, List.length_map]
      omega
    rw [List.take_of_length_le hkl]
    simp [LruCache.keys]
  · rw [if_neg hlen]
    have hlen' : c.entries.length = c.capacity := le_antisymm hle (not_lt.mp hlen)
    obtain ⟨m, hm⟩ : ∃ m, c.capacity = m + 1 := ⟨c.capacity - 1, by omega⟩
    rw [hm, List.take_succ_cons]
    simp only [LruCache.keys, List.map_cons, List.map_dropLast]
    rw [List.dropLast_eq_take]
    congr 2
    simp only [List.length_map]
    omega

theorem foldl_put_keys (d : Decision) : ∀ (ks : List String) (c : LruCache),
    ks.Nodup → (∀ k ∈ ks, k ∉ c.keys) → c.entries.length ≤ c.capacity →
    0 < c.capacity →
    (ks.foldl (fun c k => c.put k d) c).keys = (ks.reverse ++ c.keys).take c.capacity
  | [], c, _, _, hle, _ => by
    have hkl : c.keys.length ≤ c.capacity := by
      simpa [LruCache.keys] using hle
    simp [List.take_of_length_le hkl]
  | k :: rest, c, hnd, hfresh, hle, hC => by
    rw [List.foldl_cons]
    have hk : k ∉ c.keys := hfresh k (List.mem_cons_self k rest)
    have hkeys : (c.put k d).keys = (k :: c.keys).take c.capacity :=
      LruCache.keys_put_fresh c k d hk hle hC
    have hcap : (c.put k d).capacity = c.capacity := LruCache.put_capacity c k d
    have hkl : (c.put k d).keys.length ≤ c.capacity := by
      rw [hkeys, List.length_take]
      exact Nat.min_le_left _ _
    have hle' : (c.put k d).entries.length ≤ (c.put k d).capacity := by
      have hkeq : (c.put k d).keys.length = (c.put k d).entries.length := by
        simp [LruCache.keys]
      rw [hcap]
      omega
    have hfresh' : ∀ x ∈ rest, x ∉ (c.put k d).keys := by
      intro x hx hmem
      rw [hkeys] at hmem
      have hmem' : x ∈ k :: c.keys := List.take_subset _ _ hmem
      cases List.mem_cons.mp hmem' with
      | inl hxk =>
        exact (List.nodup_cons.mp hnd).1 (hxk ▸ hx)
      | inr hxc => exact hfresh x (List.mem_cons_of_mem k hx) hxc
    have ih := foldl_put_keys d rest (c.put k d) (List.Nodup.of_cons hnd)
      hfresh' hle' (hcap ▸ hC)
    rw [ih, hkeys, hcap, take_append_take]
    congr 1
    simp

theorem decideCheck_of_get_some (policy : CheckParam → Decision) (st : EngineState)
    (p : CheckParam) (d : Decision) (c : LruCache)
    (hget : st.cache.get (deriveKey p) = (some d, c)) :
    decideCheck policy st p = (d, { st with cache := c }) := by
  unfold decideCheck
  rw [hget]

theorem decideCheck_of_get_none (policy : CheckParam → Decision) (st : EngineState)
    (p : CheckParam) (c : LruCache)
    (hget : st.cache.get (deriveKey p) = (none, c)) :
    decideCheck policy st p =
      (policy p, ⟨c.put (deriveKey p) (policy p), st.poolAcquisitions + 1⟩) := by
  unfold decideCheck
  rw [hget]

/-! ## Claims -/

/-- Claim C6: with a fixed, unchanged policy, two `decide` calls whose
parameters derive the same cache key return identical decision content,
and the second call does not acquire an interpreter from the pool (the
acquisition counter is unchanged by the second call). -/
theorem decideCheck_idempotent (policy : CheckParam → Decision) (st : EngineState)
    (p q : CheckParam) (hk : deriveKey p = deriveKey q) :
    (decideCheck policy (decideCheck policy st p).2 q).1 =
      (decideCheck policy st p).1 ∧
    (decideCheck policy (decideCheck policy st p).2 q).2.poolAcquisitions =
      (decideCheck policy st p).2.poolAcquisitions := by
  suffices hs : ∃ d0 tail,
      (decideCheck policy st p).2.cache =
        ⟨(decideCheck policy st p).2.cache.capacity, (deriveKey q, d0) :: tail⟩ ∧
      (decideCheck policy st p).1 = d0 by
    obtain ⟨d0, tail, hcache, hval⟩ := hs
    have hget : (decideCheck policy st p).2.cache.get (deriveKey q) =
        (some d0, (decideCheck policy st p).2.cache) := by
      conv in (decideCheck policy st p).2.cache.get (deriveKey q) => rw [hcache]
      rw [LruCache.get_head, ← hcache]
    rw [decideCheck_of_get_some policy _ q d0 _ hget, hval]
    exact ⟨rfl, rfl⟩
  cases hf : st.cache.entries.find? (fun x => x.fst = deriveKey p) with
  | some e =>
    obtain ⟨ef, ed⟩ := e
    have hek : ef = deriveKey p := by simpa using List.find?_some hf
    subst hek
    have h1 : decideCheck policy st p =
        (ed, { st with cache := ⟨st.cache.capacity,
          (deriveKey p, ed) ::
            st.cache.entries.eraseP (fun x => x.fst = deriveKey p)⟩ }) :=
      decideCheck_of_get_some policy st p ed _
        (LruCache.get_of_find st.cache _ _ hf)
    refine ⟨ed, st.cache.entries.eraseP (fun x => x.fst = deriveKey p), ?_, by rw [h1]⟩
    rw [h1, ← hk]
  | none =>
    have hnk : deriveKey p ∉ st.cache.keys := by
      intro hmem
      obtain ⟨x, hx, hfst⟩ := List.mem_map.mp hmem
      rw [List.find?_eq_none] at hf
      exact hf x hx (decide_eq_true hfst)
    have h1 : decideCheck policy st p =
        (policy p, ⟨st.cache.put (deriveKey p) (policy p),
          st.poolAcquisitions + 1⟩) :=
      decideCheck_of_get_none policy st p st.cache
        (LruCache.get_of_find_none st.cache _ hf)
    refine ⟨policy p,
      (if st.cache.entries.length < st.cache.capacity then st.cache.entries
        else st.cache.entries.dropLast), ?_, by rw [h1]⟩
    rw [h1, ← hk]
    simp only
    rw [LruCache.put_fresh st.cache _ _ hnk]

/-- Witness for C6: deciding the same COMMAND parameter twice from an
empty cache of capacity 4. -/
theorem decideCheck_idempotent_witness :
    deriveKey { ty := CType.COMMAND, salient := "id" } =
      deriveKey { ty := CType.COMMAND, salient := "id" } ∧
    ((decideCheck (fun _ => allowDecision)
        (decideCheck (fun _ => allowDecision) ⟨LruCache.empty 4, 0⟩
          { ty := CType.COMMAND, salient := "id" }).2
        { ty := CType.COMMAND, salient := "id" }).1 =
      (decideCheck (fun _ => allowDecision) ⟨LruCache.empty 4, 0⟩
        { ty := CType.COMMAND, salient := "id" }).1 ∧
    (decideCheck (fun _ => allowDecision)
        (decideCheck (fun _ => allowDecision) ⟨LruCache.empty 4, 0⟩
          { ty := CType.COMMAND, salient := "id" }).2
        { ty := CType.COMMAND, salient := "id" }).2.poolAcquisitions =
      (decideCheck (fun _ => allowDecision) ⟨LruCache.empty 4, 0⟩
        { ty := CType.COMMAND, salient := "id" }).2.poolAcquisitions) :=
  ⟨rfl, decideCheck_idempotent (fun _ => allowDecision) ⟨LruCache.empty 4, 0⟩
    { ty := CType.COMMAND, salient := "id" }
    { ty := CType.COMMAND, salient := "id" } rfl⟩


/-- Claim C1: every error raised while building the check parameters or
while invoking the policy is caught and converted into a fail-open ALLOW
outcome with a logged diagnostic, and `checkCommand` (a total function of
its inputs — it returns normally for every input) never propagates such
an error: when the engine fails, the outcome is either an aborted check
carrying the build error's warning log, or an ALLOW decision whose
message list is exactly the engine error's diagnostic. -/
theorem checkCommand_fail_open (env : JsEnv) (e : EngineErr) (cmd : List String)
    (hne : cmd ≠ []) :
    (checkCommand env (Except.error e) cmd).effectiveAction = Action.ALLOW ∧
    ((∃ msg, checkCommand env (Except.error e) cmd = .aborted msg) ∨
      (∃ log, checkCommand env (Except.error e) cmd =
        .checked .COMMAND { action := .ALLOW, messages := [e.diag] } log)) := by
  obtain ⟨a, l, rfl⟩ : ∃ a l, cmd = a :: l := by
    cases cmd with
    | nil => exact absurd rfl hne
    | cons a l => exact ⟨a, l, rfl⟩
  obtain ⟨ec, no, gs, na⟩ := env
  cases ec <;> cases no <;> cases gs <;> cases na <;>
    simp [checkCommand, buildParams, doCheckWithoutRequest,
      CheckOutcome.effectiveAction]

/-- Witness for C1: a forced script-runtime error on a concrete command
yields an ALLOW decision with the diagnostic message. -/
theorem checkCommand_fail_open_witness :
    (["/bin/sh", "-c", "id"] : List String) ≠ [] ∧
    ((checkCommand okEnv (Except.error (EngineErr.scriptRuntime "boom"))
        ["/bin/sh", "-c", "id"]).effectiveAction = Action.ALLOW ∧
      ((∃ msg, checkCommand okEnv (Except.error (EngineErr.scriptRuntime "boom"))
          ["/bin/sh", "-c", "id"] = .aborted msg) ∨
        (∃ log, checkCommand okEnv (Except.error (EngineErr.scriptRuntime "boom"))
          ["/bin/sh", "-c", "id"] = .checked .COMMAND
            { action := .ALLOW,
              messages := [(EngineErr.scriptRuntime "boom").diag] } log))) :=
  ⟨by decide,
    checkCommand_fail_open okEnv (EngineErr.scriptRuntime "boom")
      ["/bin/sh", "-c", "id"] (by decide)⟩

/-- Claim C2: for every non-empty command list, the parameter object's
`command` field is the list's elements joined by single spaces, the check
is made under operation type COMMAND, and the list
`["/bin/sh", "-c", "id"]` joins to `"/bin/sh -c id"`. -/
theorem c2_command_join (env : JsEnv) (cmd : List String) (p : Params)
    (log : Option String) (engine : Except EngineErr Decision) (ty : CType)
    (d : Decision) (log2 : Option String) (hne : cmd ≠ [])
    (hb : buildParams env cmd = (some p, log))
    (hk : checkCommand env engine cmd = .checked ty d log2) :
    p.command = some (String.intercalate " " cmd) ∧ ty = CType.COMMAND ∧
    String.intercalate " " ["/bin/sh", "-c", "id"] = "/bin/sh -c id" := by
  obtain ⟨ec, no, gs, na⟩ := env
  refine ⟨?_, ?_, rfl⟩
  · cases ec <;> cases no <;> cases gs <;> cases na <;>
      simp_all [buildParams] <;> rw [← hb.1]
  · obtain ⟨a, l, rfl⟩ : ∃ a l, cmd = a :: l := by
      cases cmd with
      | nil => exact absurd rfl hne
      | cons a l => exact ⟨a, l, rfl⟩
    unfold checkCommand at hk
    cases ec <;> cases no <;> cases gs <;> cases na <;>
      simp_all [buildParams]

/-- Witness for C2 at the command list `["/bin/sh", "-c", "id"]` in the
all-successful host environment. -/
theorem c2_command_join_witness :
    ((["/bin/sh", "-c", "id"] : List String) ≠ [] ∧
      buildParams okEnv ["/bin/sh", "-c", "id"] =
        (some { command := some "/bin/sh -c id", stack := some [] }, none) ∧
      checkCommand okEnv (Except.ok allowDecision) ["/bin/sh", "-c", "id"] =
        .checked .COMMAND allowDecision none) ∧
    ((some "/bin/sh -c id" : Option String) =
        some (String.intercalate " " ["/bin/sh", "-c", "id"]) ∧
      CType.COMMAND = CType.COMMAND ∧
      String.intercalate " " ["/bin/sh", "-c", "id"] = "/bin/sh -c id") :=
  ⟨⟨by decide, rfl, rfl⟩,
    c2_command_join okEnv ["/bin/sh", "-c", "id"]
      { command := some "/bin/sh -c id", stack := some [] } none
      (Except.ok allowDecision) .COMMAND allowDecision none
      (by decide) rfl rfl⟩

/-- Claim C3 counterexample: on the empty command list `checkCommand`
silently skips — it produces the `skipped` outcome, which carries no
error, no diagnostic and no engine invocation, rather than any
distinguished `MalformedInputError` outcome. -/
theorem c3_counterexample :
    checkCommand okEnv (Except.ok allowDecision) [] = CheckOutcome.skipped := rfl

/-- Claim C3 as amended: for an empty (or absent) command list the hook
skips the check entirely — no parameter is constructed, no error outcome
or diagnostic is produced, and the decision engine is never invoked. -/
theorem c3_amended (env : JsEnv) (engine : Except EngineErr Decision) :
    checkCommand env engine [] = CheckOutcome.skipped := rfl

/-- Claim C5: the cache key namespaces by operation type, so a COMMAND
check and a FILE check over the same salient text get distinct keys. -/
theorem c5_key_namespaced :
    deriveKey { ty := CType.COMMAND, salient := "rm -rf /" } ≠
      deriveKey { ty := CType.FILE, salient := "rm -rf /" } := by decide

/-- Claim C8: stack capture returns at most `maxDepth` frames, always
returns (it is a total function), returns the empty sequence in an
environment with no introspectable stack, and returns the empty sequence
when the starting offset is at or above the top of the stack. -/
theorem c8_capture_bound (stack : List String) (s m k : Nat) :
    (capture stack s m).length ≤ m ∧
    capture [] s m = [] ∧
    capture stack (stack.length + k) m = [] := by
  refine ⟨?_, ?_, ?_⟩
  · simp only [capture, List.length_take]
    omega
  · simp [capture]
  · have h : stack.length ≤ stack.length + k := Nat.le_add_right _ _
    simp [capture, List.drop_eq_nil_of_le h]

/-- Claim C4 (code bug): `AddDependency` never resets its `idContent`
accumulator inside the loop, so a dependency's `UpsertId` is the
concatenation of the path/tag/rasp-id serializations of every dependency
up to and including it — it depends on the dependency's position and on
the other dependencies in the batch, not only on its own fields.  The
same dependency `sampleDepB` gets the key `"[b.jar]t2y"` when sent alone
but `"[a.jar]t1x[b.jar]t2y"` when preceded by `sampleDepA`. -/
theorem addDependency_upsertId_batch_dependent :
    (addDependency 0 sampleRasp [sampleDepA, sampleDepB]).map Dependency.upsertId =
      ["[a.jar]t1x", "[a.jar]t1x[b.jar]t2y"] ∧
    (addDependency 0 sampleRasp [sampleDepB]).map Dependency.upsertId =
      ["[b.jar]t2y"] ∧
    (addDependency 0 sampleRasp [sampleDepA, sampleDepB]).map Dependency.upsertId ≠
      (addDependency 0 sampleRasp [sampleDepA]).map Dependency.upsertId ++
        (addDependency 0 sampleRasp [sampleDepB]).map Dependency.upsertId := by
  refine ⟨by decide, by decide, by decide⟩

/-- Claim C10: in the byte-array form of `checkCommand`, a non-empty
command array contributes one leading string with its final byte removed,
the args array contributes exactly one string per zero byte it contains,
and bytes after the last zero byte of args are silently discarded (a
zero-free suffix never changes the result). -/
theorem checkCommandBytes_split (cmd args tail : List Nat) (hc : cmd ≠ [])
    (ht : ∀ b ∈ tail, b ≠ 0) :
    checkCommandBytes cmd args = cmd.dropLast :: argsSegments args ∧
    (argsSegments args).length = args.count 0 ∧
    checkCommandBytes cmd (args ++ tail) = checkCommandBytes cmd args := by
  obtain ⟨a, l, rfl⟩ : ∃ a l, cmd = a :: l := by
    cases cmd with
    | nil => exact absurd rfl hc
    | cons a l => exact ⟨a, l, rfl⟩
  refine ⟨by simp [checkCommandBytes], argsSegmentsAux_length args [], ?_⟩
  simp only [checkCommandBytes, argsSegments]
  rw [argsSegmentsAux_append_no_zero args tail [] ht]

/-- Claim C9: for a valid page request, the dependency term aggregation
returns as total the number of buckets — with the terms aggregation
modelled from the spec, the number of distinct stored tag values — and
the returned page is exactly the requested bucket window filtered to the
buckets whose tag splits on ":" into three components, reported as
vendor, product and version (buckets that do not split into three are
omitted from the page yet still counted in the total); stored tags have
this shape because `AddDependency` sets `Tag` to
`Vendor + ":" + Product + ":" + Version`. -/
theorem aggrDependency_page (buckets : List AggrBucket) (tags : List String)
    (page perpage : Int) (now : Int) (rasp : Rasp) (deps : List Dependency)
    (hp : 1 ≤ page) (hpp : 0 ≤ perpage) :
    aggrDependencyByQuery buckets page perpage =
      .ok ((buckets.length : Int),
        ((buckets.drop ((page - 1) * perpage).toNat).take perpage.toNat).filterMap
          bucketEntry) ∧
    aggrDependencyByQuery (termsAgg tags) page perpage =
      .ok ((tags.dedup.length : Int),
        (((termsAgg tags).drop ((page - 1) * perpage).toNat).take
          perpage.toNat).filterMap bucketEntry) ∧
    (∀ e ∈ ((buckets.drop ((page - 1) * perpage).toNat).take
        perpage.toNat).filterMap bucketEntry,
      ∃ b ∈ buckets, b.key = some e.tag ∧ b.docCount = e.raspCount ∧
        (e.tag.splitOn ":").length = 3 ∧
        e.vendor = (e.tag.splitOn ":").getD 0 "" ∧
        e.product = (e.tag.splitOn ":").getD 1 "" ∧
        e.version = (e.tag.splitOn ":").getD 2 "") ∧
    (∀ d ∈ addDependency now rasp deps,
      d.tag = d.vendor ++ ":" ++ d.product ++ ":" ++ d.version) := by
  have hbase : (0 : Int) ≤ (page - 1) * perpage :=
    mul_nonneg (by omega) hpp
  have hwin : ∀ (bs : List AggrBucket), aggrDependencyByQuery bs page perpage =
      .ok ((bs.length : Int),
        ((bs.drop ((page - 1) * perpage).toNat).take perpage.toNat).filterMap
          bucketEntry) := by
    intro bs
    unfold aggrDependencyByQuery
    rw [aggrGo_eq bs _ hbase perpage.toNat 0]
    simp [Except.map]
  refine ⟨hwin buckets, ?_, ?_, ?_⟩
  · rw [hwin (termsAgg tags)]
    simp [termsAgg]
  · intro e he
    rw [List.mem_filterMap] at he
    obtain ⟨b, hbmem, hbe⟩ := he
    have hbbuckets : b ∈ buckets :=
      List.drop_subset _ _ (List.take_subset _ _ hbmem)
    cases hk : b.key with
    | none => simp [bucketEntry, hk] at hbe
    | some tag =>
      simp only [bucketEntry, hk] at hbe
      by_cases h3 : (tag.splitOn ":").length = 3
      · rw [if_pos h3, Option.some_inj] at hbe
        subst hbe
        exact ⟨b, hbbuckets, hk, rfl, h3, rfl, rfl, rfl⟩
      · rw [if_neg h3] at hbe
        exact absurd hbe (by simp)
  · intro d hd
    exact addDependencyDocs_tag now rasp deps "" d hd

/-- Witness for C9: two buckets (one malformed tag) at page 1, three
entries per page. -/
theorem aggrDependency_page_witness :
    ((1 : Int) ≤ 1 ∧ (0 : Int) ≤ 3) ∧
    (aggrDependencyByQuery sampleBuckets 1 3 =
      .ok ((sampleBuckets.length : Int),
        ((sampleBuckets.drop ((1 - 1) * 3 : Int).toNat).take
          (3 : Int).toNat).filterMap bucketEntry) ∧
    aggrDependencyByQuery (termsAgg sampleTags) 1 3 =
      .ok ((sampleTags.dedup.length : Int),
        (((termsAgg sampleTags).drop ((1 - 1) * 3 : Int).toNat).take
          (3 : Int).toNat).filterMap bucketEntry) ∧
    (∀ e ∈ ((sampleBuckets.drop ((1 - 1) * 3 : Int).toNat).take
        (3 : Int).toNat).filterMap bucketEntry,
      ∃ b ∈ sampleBuckets, b.key = some e.tag ∧ b.docCount = e.raspCount ∧
        (e.tag.splitOn ":").length = 3 ∧
        e.vendor = (e.tag.splitOn ":").getD 0 "" ∧
        e.product = (e.tag.splitOn ":").getD 1 "" ∧
        e.version = (e.tag.splitOn ":").getD 2 "") ∧
    (∀ d ∈ addDependency 0 sampleRasp [sampleDepA],
      d.tag = d.vendor ++ ":" ++ d.product ++ ":" ++ d.version)) :=
  ⟨⟨by decide, by decide⟩,
    aggrDependency_page sampleBuckets sampleTags 1 3 0 sampleRasp [sampleDepA]
      (by decide) (by decide)⟩

/-- Claim C7: in a Decision Cache of capacity `C` (`C > 0`), after putting
`C+1` distinct keys the first-inserted key — the least-recently-used one —
is the only absent key; `put` on a full cache evicts exactly one entry,
the least-recently-used, before inserting, keeping the size at `C`; `get`
never removes a key (the model carries no time, so no entry can expire by
time — only `put` under capacity pressure evicts); and eviction follows
access order, not insertion order: after `get` touches the entry at the
LRU position of a full cache, the next `put` evicts the previously
next-least-recently-used entry while the touched entry survives. -/
theorem lruCache_eviction (C : Nat) (k0 : String) (rest : List String)
    (d : Decision) (hC : 0 < C) (hnd : (k0 :: rest).Nodup)
    (hlen : rest.length = C) :
    ((k0 :: rest).foldl (fun c k => c.put k d) (LruCache.empty C)).keys =
        rest.reverse ∧
    k0 ∉ ((k0 :: rest).foldl (fun c k => c.put k d) (LruCache.empty C)).keys ∧
    (∀ k ∈ rest, k ∈ ((k0 :: rest).foldl (fun c k => c.put k d)
        (LruCache.empty C)).keys) ∧
    (∀ (c : LruCache) (k' : String) (dv : Decision),
      c.entries.length = c.capacity → 0 < c.capacity → k' ∉ c.keys →
      (c.put k' dv).entries = (k', dv) :: c.entries.dropLast ∧
      (c.put k' dv).entries.length = c.capacity) ∧
    (∀ (c : LruCache) (k : String), ((c.get k).2.keys).Perm c.keys) ∧
    (∀ (c : LruCache) (pre : List (String × Decision)) (e : String × Decision)
        (k' : String) (dv : Decision),
      c.entries = pre ++ [e] → pre ≠ [] → c.entries.length = c.capacity →
      (c.entries.map Prod.fst).Nodup → k' ∉ c.keys →
      ((c.get e.fst).2.put k' dv).entries = (k', dv) :: e :: pre.dropLast) := by
  have hfold : ((k0 :: rest).foldl (fun c k => c.put k d)
      (LruCache.empty C)).keys = rest.reverse := by
    rw [foldl_put_keys d (k0 :: rest) (LruCache.empty C) hnd
      (by intro k _ hm; simp [LruCache.empty, LruCache.keys] at hm)
      (by simp [LruCache.empty]) hC]
    simp only [LruCache.empty, LruCache.keys, List.map_nil, List.append_nil,
      List.reverse_cons]
    exact List.take_left' (by simp [hlen])
  refine ⟨hfold, ?_, ?_, ?_, ?_, ?_⟩
  · rw [hfold, List.mem_reverse]
    exact (List.nodup_cons.mp hnd).1
  · intro k hk
    rw [hfold, List.mem_reverse]
    exact hk
  · intro c k' dv hfull hCpos hk'
    rw [LruCache.put_fresh c k' dv hk', if_neg (by omega)]
    refine ⟨rfl, ?_⟩
    simp only [List.length_cons, List.length_dropLast]
    omega
  · intro c k
    cases hf : c.entries.find? (fun x => x.fst = k) with
    | none =>
      rw [LruCache.get_of_find_none c k hf]
    | some e =>
      rw [LruCache.get_of_find c k e hf]
      exact (List.Perm.map Prod.fst (perm_cons_eraseP_of_find c.entries _ e hf)).symm
  · intro c pre e k' dv hentries hprene hfull hnd' hk'
    have hall : ∀ x ∈ pre, ¬ ((fun x => decide (x.fst = e.fst)) x = true) := by
      intro x hx
      simp only [decide_eq_true_eq]
      intro hfst
      rw [hentries, List.map_append] at hnd'
      exact (List.nodup_append.mp hnd').2.2
        (hfst ▸ List.mem_map_of_mem Prod.fst hx) (by simp)
    have hfind : c.entries.find? (fun x => x.fst = e.fst) = some e := by
      rw [hentries, List.find?_append, List.find?_eq_none.mpr hall,
        List.find?_cons_of_pos _ (by simp)]
      rfl
    have herase : c.entries.eraseP (fun x => x.fst = e.fst) = pre := by
      rw [hentries, List.eraseP_append_right _ hall,
        List.eraseP_cons_of_pos (by simp), List.append_nil]
    rw [LruCache.get_of_find c e.fst e hfind, herase]
    have hkeyseq : c.keys = pre.map Prod.fst ++ [e.fst] := by
      simp [LruCache.keys, hentries]
    have hk2 : k' ∉ ((⟨c.capacity, e :: pre⟩ : LruCache)).keys := by
      simp only [LruCache.keys, List.map_cons, List.mem_cons]
      rintro (h1 | h2) <;> apply hk' <;> rw [hkeyseq]
      · simp [h1]
      · exact List.mem_append_left _ h2
    have hlen2 : ((⟨c.capacity, e :: pre⟩ : LruCache)).entries.length =
        c.capacity := by
      have hl := hfull
      rw [hentries] at hl
      simp only [List.length_append, List.length_cons, List.length_nil] at hl
      simp only [List.length_cons]
      omega
    rw [LruCache.put_fresh _ k' dv hk2, if_neg (by simp [hlen2])]
    simp [List.dropLast_cons_of_ne_nil hprene]

/-- Witness for C7: capacity 2, keys "a", "b", "c" inserted in order. -/
theorem lruCache_eviction_witness :
    (0 < 2 ∧ (["a", "b", "c"] : List String).Nodup ∧
      (["b", "c"] : List String).length = 2) ∧
    ((["a", "b", "c"].foldl (fun c k => c.put k allowDecision)
        (LruCache.empty 2)).keys = ["b", "c"].reverse ∧
    "a" ∉ (["a", "b", "c"].foldl (fun c k => c.put k allowDecision)
        (LruCache.empty 2)).keys ∧
    (∀ k ∈ (["b", "c"] : List String),
      k ∈ (["a", "b", "c"].foldl (fun c k => c.put k allowDecision)
        (LruCache.empty 2)).keys) ∧
    (∀ (c : LruCache) (k' : String) (dv : Decision),
      c.entries.length = c.capacity → 0 < c.capacity → k' ∉ c.keys →
      (c.put k' dv).entries = (k', dv) :: c.entries.dropLast ∧
      (c.put k' dv).entries.length = c.capacity) ∧
    (∀ (c : LruCache) (k : String), ((c.get k).2.keys).Perm c.keys) ∧
    (∀ (c : LruCache) (pre : List (String × Decision)) (e : String × Decision)
        (k' : String) (dv : Decision),
      c.entries = pre ++ [e] → pre ≠ [] → c.entries.length = c.capacity →
      (c.entries.map Prod.fst).Nodup → k' ∉ c.keys →
      ((c.get e.fst).2.put k' dv).entries = (k', dv) :: e :: pre.dropLast)) :=
  ⟨⟨by decide, by decide, by decide⟩,
    lruCache_eviction 2 "a" ["b", "c"] allowDecision (by decide) (by decide)
      (by decide)⟩

/-- Witness for C10: command `[1, 2, 0]`, args `[5, 0, 6, 0, 7]` (the
trailing `7` after the last zero is discarded), zero-free suffix `[9]`. -/
theorem checkCommandBytes_split_witness :
    (([1, 2, 0] : List Nat) ≠ [] ∧ (∀ b ∈ ([9] : List Nat), b ≠ 0)) ∧
    (checkCommandBytes [1, 2, 0] [5, 0, 6, 0, 7] =
        [1, 2, 0].dropLast :: argsSegments [5, 0, 6, 0, 7] ∧
      (argsSegments [5, 0, 6, 0, 7]).length = List.count 0 [5, 0, 6, 0, 7] ∧
      checkCommandBytes [1, 2, 0] ([5, 0, 6, 0, 7] ++ [9]) =
        checkCommandBytes [1, 2, 0] [5, 0, 6, 0, 7]) :=
  ⟨⟨by decide, by decide⟩,
    checkCommandBytes_split [1, 2, 0] [5, 0, 6, 0, 7] [9] (by decide) (by decide)⟩

end OpenRasp
